import Mathlib

/-!
# Verification of the scrum-master breakdown pipeline

Shallow embedding of the core pipeline of the `scrum-master` repository:
content chunking, bounded retry, cross-chunk epic/story merging, and the
two-phase (epic-then-story) JIRA ticket creation coordinator, together with
proofs of the specified properties.

Sources embedded here:
* `internal/services` AI service (`ProcessWithRetry`, `MergeEpics`,
  `deduplicateStories`, response cleaning in `ProcessWithAI`),
* `internal/services` JIRA service (`CreateIssueWithRetry`,
  `CreateTicketsFromBreakdown`),
* `internal/services/analysis.go` (`ProcessProject`, `chunkContent`),
* `main.go` (`splitIntoChunks`, `analyzeProject`, `mergeEpics`,
  `deduplicateStories`, `createJiraTickets`),
* `internal/config` (`Config.Validate`).

Modelling conventions: Go strings are Lean `String`s; Go `len` on strings is
UTF-8 byte count (`goLen`); Go `int` is `Int` where sign matters and `Nat`
where the source only ever sees non-negative values; Go maps keyed by strings
are insertion-ordered association lists (Go map iteration order is
unspecified; all properties proved below are insensitive to the output
order); fallible calls return `Except`; the external JIRA tracker and the AI
endpoint are oracles passed in as functions.
-/

namespace ScrumMaster

/-- A user story, translated from `internal/models/project.go` (`Story`). -/
structure Story where
  title : String
  description : String
  storyPoints : Int
  priority : String
  acceptanceCriteria : List String
  dependencies : List String
deriving Repr, DecidableEq

/-- A project epic, translated from `internal/models/project.go` (`Epic`). -/
structure Epic where
  title : String
  description : String
  priority : String
  chunk : Int
  stories : List Story
deriving Repr, DecidableEq

/-- The full breakdown, translated from `internal/models/project.go`
(`ProjectBreakdown`). -/
structure ProjectBreakdown where
  projectName : String
  overview : String
  epics : List Epic
  totalEpics : Int
  totalStories : Int
  totalStoryPoints : Int
  processedChunks : Int
deriving Repr, DecidableEq

/-- Go `len` on a string: the number of UTF-8 bytes. -/
def goLen (s : String) : Nat := s.utf8ByteSize

/-- The whitespace characters recognised by Go's `unicode.IsSpace` in the
Latin-1 range; models the trimming set of `strings.TrimSpace`. -/
def isGoSpace (c : Char) : Bool :=
  c = ' ' || c = '\t' || c = '\n' || c = '\x0b' || c = '\x0c' || c = '\r' ||
    c = '\u0085' || c = '\u00A0'

/-- Drop leading whitespace from a character list. -/
def trimLeftList (l : List Char) : List Char := l.dropWhile isGoSpace

/-- Drop trailing whitespace from a character list. -/
def trimRightList (l : List Char) : List Char :=
  (l.reverse.dropWhile isGoSpace).reverse

/-- Models Go `strings.TrimSpace`. -/
def trimGo (s : String) : String :=
  String.mk (trimRightList (trimLeftList s.toList))

/-- ASCII lower-casing of one character; models Go `strings.ToLower` on the
ASCII titles manipulated by the program. -/
def lowerChar (c : Char) : Char :=
  if 'A' ≤ c ∧ c ≤ 'Z' then Char.ofNat (c.toNat + 32) else c

/-- Models Go `strings.ToLower`. -/
def toLowerGo (s : String) : String :=
  String.mk (s.toList.map lowerChar)

/-- The merge/dedup key of `MergeEpics` and `deduplicateStories`:
`strings.ToLower(strings.TrimSpace(title))`. -/
def normalize (s : String) : String := toLowerGo (trimGo s)

/-! ## Retry orchestrator

`ProcessWithRetry` (AI service) and `CreateIssueWithRetry` (JIRA service)
duplicate the same loop: `for attempt := 1; attempt <= maxAttempts; attempt++`
calls the operation, returns on first success, records the last error, and
sleeps only when another attempt remains.  The loop is embedded with the
count of remaining attempts as the structural recursion measure; the returned
triple is (result, number of invocations, number of sleeps). -/

/-- The exhaustion error: `fmt.Errorf("failed after %d attempts: %w", n, lastErr)`. -/
def retryFailMsg (maxAttempts : Nat) (lastErr : Option String) : String :=
  "failed after " ++ toString maxAttempts ++ " attempts: " ++
    (match lastErr with
     | Option.some e => e
     | Option.none => "<nil>")

/-- One run of the retry loop, from a state with `rem` attempts remaining and
the next attempt numbered `attempt`; `op` maps an attempt number to that
attempt's outcome.  Returns (result, invocations made, sleeps performed). -/
def retryGo {β : Type} (op : Nat → Except String β) (maxAttempts : Nat) :
    Nat → Nat → Option String → Except String β × Nat × Nat
  | 0, _, lastErr => (Except.error (retryFailMsg maxAttempts lastErr), 0, 0)
  | rem + 1, attempt, _lastErr =>
    match op attempt with
    | Except.ok v => (Except.ok v, 1, 0)
    | Except.error e =>
      let r := retryGo op maxAttempts rem (attempt + 1) (Option.some e)
      (r.1, r.2.1 + 1, r.2.2 + (if rem = 0 then 0 else 1))

/-- The retry wrapper: attempts are numbered from 1, at most `maxAttempts` of
them are made.  Models `ProcessWithRetry` / `CreateIssueWithRetry` /
`processChunkWithRetry` / `createJiraIssueWithRetry`. -/
def processWithRetry {β : Type} (op : Nat → Except String β) (maxAttempts : Nat) :
    Except String β × Nat × Nat :=
  retryGo op maxAttempts maxAttempts 1 Option.none

theorem retryGo_bound {β : Type} (op : Nat → Except String β) (N : Nat)
    (rem attempt : Nat) (lastErr : Option String) :
    (retryGo op N rem attempt lastErr).2.1 ≤ rem ∧
    (retryGo op N rem attempt lastErr).2.2 ≤ rem - 1 := by
  induction rem generalizing attempt lastErr with
  | zero => simp [retryGo]
  | succ r ih =>
    cases hop : op attempt with
    | ok v => simp [retryGo, hop]
    | error e =>
      obtain ⟨h1, h2⟩ := ih (attempt + 1) (Option.some e)
      simp only [retryGo, hop, Nat.succ_sub_one]
      refine ⟨by omega, ?_⟩
      by_cases hr : r = 0
      · subst hr
        simpa using h2
      · simp only [if_neg hr]
        omega

theorem retryGo_success {β : Type} (op : Nat → Except String β) (N : Nat)
    (k : Nat) :
    ∀ (rem attempt : Nat) (lastErr : Option String) (v : β), k < rem →
      (∀ j, attempt ≤ j → j < attempt + k → ∃ e, op j = Except.error e) →
      op (attempt + k) = Except.ok v →
      retryGo op N rem attempt lastErr = (Except.ok v, k + 1, k) := by
  induction k with
  | zero =>
    intro rem attempt lastErr v hk hfail hok
    match rem, hk with
    | r + 1, _ =>
      rw [Nat.add_zero] at hok
      simp [retryGo, hok]
  | succ k ih =>
    intro rem attempt lastErr v hk hfail hok
    match rem, hk with
    | r + 1, hk =>
      obtain ⟨e, he⟩ := hfail attempt (Nat.le_refl _) (by omega)
      have ihr := ih r (attempt + 1) (Option.some e) v (by omega)
        (fun j hj1 hj2 => hfail j (by omega) (by omega))
        (by rw [show attempt + 1 + k = attempt + (k + 1) by omega]; exact hok)
      have hr : r ≠ 0 := by omega
      simp [retryGo, he, ihr, hr]

theorem retryGo_allFail {β : Type} (op : Nat → Except String β) (N : Nat) :
    ∀ (rem attempt : Nat) (lastErr : Option String), 1 ≤ rem →
      (∀ j, attempt ≤ j → j < attempt + rem → ∃ e, op j = Except.error e) →
      ∃ e, op (attempt + rem - 1) = Except.error e ∧
        retryGo op N rem attempt lastErr =
          (Except.error (retryFailMsg N (Option.some e)), rem, rem - 1) := by
  intro rem
  induction rem with
  | zero => omega
  | succ r ih =>
    intro attempt lastErr _ hfail
    obtain ⟨e, he⟩ := hfail attempt (Nat.le_refl _) (by omega)
    by_cases hr : r = 0
    · subst hr
      refine ⟨e, by simpa using he, ?_⟩
      simp [retryGo, he, retryFailMsg]
    · obtain ⟨e', he', hrec⟩ := ih (attempt + 1) (Option.some e) (by omega)
        (fun j hj1 hj2 => hfail j (by omega) (by omega))
      refine ⟨e', ?_, ?_⟩
      · rw [show attempt + (r + 1) - 1 = attempt + 1 + r - 1 by omega]
        exact he'
      · simp only [retryGo, he, hrec, Nat.succ_sub_one]
        simp [hr]
        omega

/-- C2: for every operation and every `maxAttempts = N ≥ 1`, the retry
wrapper invokes the operation at most `N` times and sleeps at most `N - 1`
times; if attempt `k` is the first success it returns that success with
exactly `k` invocations and `k - 1` sleeps (no further attempt, no sleep
after the success); if all `N` attempts fail it returns an error wrapping
the `N`-th attempt's error, after exactly `N` invocations and `N - 1` sleeps
(no sleep after the final failure). -/
theorem processWithRetry_spec {β : Type} (op : Nat → Except String β) (N : Nat)
    (hN : 1 ≤ N) :
    ((processWithRetry op N).2.1 ≤ N ∧ (processWithRetry op N).2.2 ≤ N - 1) ∧
    (∀ k v, 1 ≤ k → k ≤ N →
      (∀ j, 1 ≤ j → j < k → ∃ e, op j = Except.error e) →
      op k = Except.ok v →
      processWithRetry op N = (Except.ok v, k, k - 1)) ∧
    ((∀ j, 1 ≤ j → j ≤ N → ∃ e, op j = Except.error e) →
      ∃ e, op N = Except.error e ∧
        processWithRetry op N =
          (Except.error (retryFailMsg N (Option.some e)), N, N - 1)) := by
  refine ⟨retryGo_bound op N N 1 Option.none, ?_, ?_⟩
  · intro k v hk1 hkN hfail hok
    have h := retryGo_success op N (k - 1) N 1 Option.none v (by omega)
      (fun j hj1 hj2 => hfail j (by omega) (by omega))
      (by rw [show 1 + (k - 1) = k by omega]; exact hok)
    rw [processWithRetry, h, show k - 1 + 1 = k by omega]
  · intro hfail
    obtain ⟨e, he, hr⟩ := retryGo_allFail op N N 1 Option.none hN
      (fun j hj1 hj2 => hfail j (by omega) (by omega))
    rw [show 1 + N - 1 = N by omega] at he
    exact ⟨e, he, hr⟩

/-- Witness for `processWithRetry_spec`: an operation that fails on attempts
1 and 2 and succeeds on attempt 3, run with `maxAttempts = 3`, returns the
success after exactly 3 invocations and 2 sleeps. -/
theorem processWithRetry_spec_witness :
    processWithRetry
        (fun n => if n < 3 then Except.error (toString n) else (Except.ok 7 : Except String Nat)) 3
      = (Except.ok 7, 3, 2) :=
  (processWithRetry_spec
      (fun n => if n < 3 then Except.error (toString n) else (Except.ok 7 : Except String Nat)) 3
      (by decide)).2.1 3 7 (by decide) (by decide)
    (fun j _ hj2 => ⟨toString j, by simp [hj2]⟩)
    (by simp)

/-! ## Breakdown merger

`MergeEpics` folds the input epics into a Go map keyed by
`strings.ToLower(strings.TrimSpace(title))`, merging colliding epics in
place, then converts the map back to a slice with each epic's stories
deduplicated.  The Go map is modelled as an insertion-ordered association
list; Go map iteration order is unspecified, and every property proved below
is insensitive to the output order. -/

/-- Go map assignment `m[key] = merge(existing, v)` / `m[key] = v` on an
insertion-ordered association list: merge into the existing entry for `key`
if present, otherwise append a fresh entry. -/
def upsert {α : Type} (merge : α → α → α) :
    List (String × α) → String → α → List (String × α)
  | [], key, v => [(key, v)]
  | (k, ex) :: rest, key, v =>
    if k = key then (k, merge ex v) :: rest
    else (k, ex) :: upsert merge rest key v

/-- The map-building fold shared by `MergeEpics` and `deduplicateStories`:
fold the input in order into an (insertion-ordered) map keyed by `keyOf`. -/
def mapFold {α : Type} (merge : α → α → α) (keyOf : α → String) (xs : List α) :
    List (String × α) :=
  xs.foldl (fun m x => upsert merge m (keyOf x) x) []

/-- The body of `deduplicateStories`'s collision case: keep the incoming
story iff its description is strictly longer or its acceptance-criteria list
is strictly longer. -/
def pickStory (existing incoming : Story) : Story :=
  if goLen existing.description < goLen incoming.description ∨
      existing.acceptanceCriteria.length < incoming.acceptanceCriteria.length
  then incoming else existing

/-- Models `deduplicateStories` (AI service / `main.go`): key stories by normalized
title, resolve collisions with `pickStory`, and return the surviving
stories. -/
def deduplicateStories (stories : List Story) : List Story :=
  (mapFold pickStory (fun s => normalize s.title) stories).map Prod.snd

/-- The priority-escalation rule of `MergeEpics`: incoming `High` always
wins, incoming `Medium` beats existing `Low`, otherwise the existing
priority is kept. -/
def escalate (existing incoming : String) : String :=
  if incoming = "High" ∨ (incoming = "Medium" ∧ existing = "Low")
  then incoming else existing

/-- Merging an incoming epic into the existing map entry with the same key
(`MergeEpics` collision case): append the incoming stories, keep the longer
description, escalate the priority. -/
def mergeEpicInto (existing incoming : Epic) : Epic :=
  { existing with
    stories := existing.stories ++ incoming.stories
    description :=
      if goLen existing.description < goLen incoming.description
      then incoming.description else existing.description
    priority := escalate existing.priority incoming.priority }

/-- Models `MergeEpics` (AI service / `mergeEpics` in `main.go`): fold all epics
into the keyed map, then emit the entries with each epic's stories
deduplicated. -/
def mergeEpics (epics : List Epic) : List Epic :=
  (mapFold mergeEpicInto (fun e => normalize e.title) epics).map
    (fun p => { p.2 with stories := deduplicateStories p.2.stories })

/-- The keys of an association-list map. -/
def keysOf {α : Type} (m : List (String × α)) : List String :=
  m.map Prod.fst

@[simp] theorem keysOf_nil {α : Type} : keysOf ([] : List (String × α)) = [] := rfl

@[simp] theorem keysOf_cons {α : Type} (p : String × α) (m : List (String × α)) :
    keysOf (p :: m) = p.1 :: keysOf m := rfl

@[simp] theorem keysOf_append {α : Type} (m1 m2 : List (String × α)) :
    keysOf (m1 ++ m2) = keysOf m1 ++ keysOf m2 := by
  simp [keysOf]

theorem upsert_fresh {α : Type} (merge : α → α → α) (m : List (String × α))
    (key : String) (v : α) (h : key ∉ keysOf m) :
    upsert merge m key v = m ++ [(key, v)] := by
  induction m with
  | nil => rfl
  | cons p rest ih =>
    obtain ⟨k, ex⟩ := p
    have hk : ¬ (k = key) := fun hkk => h (by simp [hkk])
    have hrest : key ∉ keysOf rest := fun hmem => h (by simp [hmem])
    simp [upsert, hk, ih hrest]

theorem keysOf_upsert_mem {α : Type} (merge : α → α → α) (m : List (String × α))
    (key : String) (v : α) (h : key ∈ keysOf m) :
    keysOf (upsert merge m key v) = keysOf m := by
  induction m with
  | nil => simp at h
  | cons p rest ih =>
    obtain ⟨k, ex⟩ := p
    by_cases hk : k = key
    · simp [upsert, hk]
    · have hmem : key ∈ keysOf rest := by
        rcases (by simpa using h : key = k ∨ key ∈ keysOf rest) with h1 | h2
        · exact absurd h1.symm hk
        · exact h2
      simp [upsert, hk, ih hmem]

theorem keysOf_upsert_nodup {α : Type} (merge : α → α → α) (m : List (String × α))
    (key : String) (v : α) (h : (keysOf m).Nodup) :
    (keysOf (upsert merge m key v)).Nodup := by
  by_cases hmem : key ∈ keysOf m
  · rw [keysOf_upsert_mem merge m key v hmem]
    exact h
  · rw [upsert_fresh merge m key v hmem]
    simp [List.nodup_append, h, hmem]

theorem upsert_forall {α : Type} {Q : String → α → Prop} (merge : α → α → α)
    (m : List (String × α)) (key : String) (v : α)
    (hm : ∀ p ∈ m, Q p.1 p.2) (hv : Q key v)
    (hmerge : ∀ a b, Q key a → Q key b → Q key (merge a b)) :
    ∀ p ∈ upsert merge m key v, Q p.1 p.2 := by
  induction m with
  | nil =>
    intro p hp
    simp [upsert] at hp
    subst hp
    exact hv
  | cons q rest ih =>
    obtain ⟨k, ex⟩ := q
    intro p hp
    by_cases hk : k = key
    · subst hk
      simp [upsert] at hp
      rcases hp with hp | hp
      · subst hp
        exact hmerge ex v (hm (k, ex) (by simp)) hv
      · exact hm p (by simp [hp])
    · simp [upsert, hk] at hp
      rcases hp with hp | hp
      · subst hp
        exact hm (k, ex) (by simp)
      · exact ih (fun q hq => hm q (by simp [hq])) p hp

theorem foldl_upsert_nodup {α : Type} (merge : α → α → α) (keyOf : α → String) :
    ∀ (xs : List α) (m : List (String × α)), (keysOf m).Nodup →
      (keysOf (xs.foldl (fun acc x => upsert merge acc (keyOf x) x) m)).Nodup := by
  intro xs
  induction xs with
  | nil => intro m hm; simpa using hm
  | cons x rest ih =>
    intro m hm
    simpa using ih (upsert merge m (keyOf x) x) (keysOf_upsert_nodup merge m (keyOf x) x hm)

theorem foldl_upsert_keyOf {α : Type} (merge : α → α → α) (keyOf : α → String)
    (hmerge : ∀ a b, keyOf (merge a b) = keyOf a ∨ keyOf (merge a b) = keyOf b) :
    ∀ (xs : List α) (m : List (String × α)), (∀ p ∈ m, keyOf p.2 = p.1) →
      ∀ p ∈ xs.foldl (fun acc x => upsert merge acc (keyOf x) x) m, keyOf p.2 = p.1 := by
  intro xs
  induction xs with
  | nil => intro m hm; simpa using hm
  | cons x rest ih =>
    intro m hm
    refine ih (upsert merge m (keyOf x) x) ?_
    refine @upsert_forall _ (fun k a => keyOf a = k) merge m (keyOf x) x hm rfl ?_
    intro a b ha hb
    rcases hmerge a b with h | h
    · rw [h, ha]
    · rw [h, hb]

theorem foldl_upsert_fresh {α : Type} (merge : α → α → α) (keyOf : α → String) :
    ∀ (xs : List α) (m : List (String × α)),
      (∀ x ∈ xs, keyOf x ∉ keysOf m) → (xs.map keyOf).Nodup →
      xs.foldl (fun acc x => upsert merge acc (keyOf x) x) m =
        m ++ xs.map (fun x => (keyOf x, x)) := by
  intro xs
  induction xs with
  | nil => intro m _ _; simp
  | cons x rest ih =>
    intro m hfresh hnodup
    have hx : keyOf x ∉ keysOf m := hfresh x (by simp)
    have hstep : upsert merge m (keyOf x) x = m ++ [(keyOf x, x)] :=
      upsert_fresh merge m (keyOf x) x hx
    have hnodup' : (rest.map keyOf).Nodup := (List.nodup_cons.mp (by simpa using hnodup)).2
    have hne : ∀ y ∈ rest, keyOf y ≠ keyOf x :=
      fun y hy hxy =>
        (List.nodup_cons.mp (by simpa using hnodup)).1 (hxy ▸ List.mem_map_of_mem keyOf hy)
    have hfresh' : ∀ y ∈ rest, keyOf y ∉ keysOf (m ++ [(keyOf x, x)]) := by
      intro y hy hmem
      simp at hmem
      rcases hmem with hmem | hmem
      · exact hfresh y (by simp [hy]) hmem
      · exact hne y hy hmem
    calc (x :: rest).foldl (fun acc z => upsert merge acc (keyOf z) z) m
        = rest.foldl (fun acc z => upsert merge acc (keyOf z) z) (m ++ [(keyOf x, x)]) := by
          simp [hstep]
      _ = (m ++ [(keyOf x, x)]) ++ rest.map (fun z => (keyOf z, z)) := ih _ hfresh' hnodup'
      _ = m ++ (x :: rest).map (fun z => (keyOf z, z)) := by simp

theorem deduplicateStories_normkeys (stories : List Story) :
    (deduplicateStories stories).map (fun s => normalize s.title) =
      keysOf (mapFold pickStory (fun s => normalize s.title) stories) := by
  unfold deduplicateStories keysOf
  rw [List.map_map]
  refine List.map_congr_left ?_
  intro p hp
  exact foldl_upsert_keyOf pickStory (fun s => normalize s.title)
    (fun a b => by unfold pickStory; split <;> simp)
    stories [] (by simp) p hp

theorem deduplicateStories_normkeys_nodup (stories : List Story) :
    ((deduplicateStories stories).map (fun s => normalize s.title)).Nodup := by
  rw [deduplicateStories_normkeys]
  exact foldl_upsert_nodup pickStory (fun s => normalize s.title) stories [] (by simp)

theorem deduplicateStories_of_nodup (stories : List Story)
    (h : (stories.map (fun s => normalize s.title)).Nodup) :
    deduplicateStories stories = stories := by
  unfold deduplicateStories mapFold
  rw [foldl_upsert_fresh pickStory (fun s => normalize s.title) stories [] (by simp) h]
  simp only [List.nil_append, List.map_map]
  calc List.map (Prod.snd ∘ fun x => (normalize x.title, x)) stories
      = List.map id stories := List.map_congr_left (fun a _ => rfl)
    _ = stories := List.map_id stories

theorem deduplicateStories_idem (stories : List Story) :
    deduplicateStories (deduplicateStories stories) = deduplicateStories stories :=
  deduplicateStories_of_nodup _ (deduplicateStories_normkeys_nodup stories)

theorem mergeEpics_normkeys (epics : List Epic) :
    (mergeEpics epics).map (fun e => normalize e.title) =
      keysOf (mapFold mergeEpicInto (fun e => normalize e.title) epics) := by
  unfold mergeEpics keysOf
  rw [List.map_map]
  refine List.map_congr_left ?_
  intro p hp
  exact foldl_upsert_keyOf mergeEpicInto (fun e => normalize e.title)
    (fun a b => Or.inl rfl)
    epics [] (by simp) p hp

theorem mergeEpics_normkeys_nodup (epics : List Epic) :
    ((mergeEpics epics).map (fun e => normalize e.title)).Nodup := by
  rw [mergeEpics_normkeys]
  exact foldl_upsert_nodup mergeEpicInto (fun e => normalize e.title) epics [] (by simp)

theorem mergeEpics_of_nodup (epics : List Epic)
    (h : (epics.map (fun e => normalize e.title)).Nodup) :
    mergeEpics epics =
      epics.map (fun e => { e with stories := deduplicateStories e.stories }) := by
  unfold mergeEpics mapFold
  rw [foldl_upsert_fresh mergeEpicInto (fun e => normalize e.title) epics [] (by simp) h]
  simp

theorem mergeEpics_stories_deduped (epics : List Epic) :
    ∀ e ∈ mergeEpics epics, deduplicateStories e.stories = e.stories := by
  intro e he
  unfold mergeEpics at he
  obtain ⟨p, _, rfl⟩ := List.mem_map.mp he
  exact deduplicateStories_idem p.2.stories

theorem mergeEpics_idem (epics : List Epic) :
    mergeEpics (mergeEpics epics) = mergeEpics epics := by
  rw [mergeEpics_of_nodup _ (mergeEpics_normkeys_nodup epics)]
  have h : ∀ e ∈ mergeEpics epics,
      ({ e with stories := deduplicateStories e.stories } : Epic) = e := by
    intro e he
    rw [mergeEpics_stories_deduped epics e he]
  exact (List.map_congr_left h).trans (List.map_id _)

/-- C3: epic merging is idempotent up to order — re-merging an already
merged epic list yields the same list of normalized epic title keys and the
same total story count (in fact, in this insertion-ordered model, the very
same list). -/
theorem mergeEpics_idempotent_keys_and_story_count (epics : List Epic) :
    (mergeEpics (mergeEpics epics)).map (fun e => normalize e.title) =
      (mergeEpics epics).map (fun e => normalize e.title) ∧
    ((mergeEpics (mergeEpics epics)).map (fun e => e.stories.length)).sum =
      ((mergeEpics epics).map (fun e => e.stories.length)).sum := by
  rw [mergeEpics_idem]
  exact ⟨rfl, rfl⟩

theorem mergeEpics_pair_collision (e1 e2 : Epic)
    (h2 : normalize e2.title = normalize e1.title) :
    mergeEpics [e1, e2] =
      [{ mergeEpicInto e1 e2 with
          stories := deduplicateStories (mergeEpicInto e1 e2).stories }] := by
  simp [mergeEpics, mapFold, upsert, h2]

theorem mergeEpics_triple_collision (e1 e2 e3 : Epic)
    (h2 : normalize e2.title = normalize e1.title)
    (h3 : normalize e3.title = normalize e1.title) :
    mergeEpics [e1, e2, e3] =
      [{ mergeEpicInto (mergeEpicInto e1 e2) e3 with
          stories := deduplicateStories (mergeEpicInto (mergeEpicInto e1 e2) e3).stories }] := by
  have ht : normalize (mergeEpicInto e1 e2).title = normalize e1.title := rfl
  simp [mergeEpics, mapFold, upsert, h2, h3]

/-- C4: when two epics with the same normalized title are merged, the merged
priority is the incoming priority if it is `High`, or if it is `Medium`
while the existing one is `Low`; otherwise the existing priority is kept.
In particular `Low` then `Medium` gives `Medium`, merging that with `High`
gives `High`, and `High` then `Low` stays `High`. -/
theorem mergeEpics_priority_escalation (e1 e2 e3 : Epic)
    (h2 : normalize e2.title = normalize e1.title)
    (h3 : normalize e3.title = normalize e1.title) :
    ((mergeEpics [e1, e2]).map (fun e => e.priority) =
      [escalate e1.priority e2.priority]) ∧
    (e1.priority = "Low" → e2.priority = "Medium" →
      (mergeEpics [e1, e2]).map (fun e => e.priority) = ["Medium"]) ∧
    (e1.priority = "Low" → e2.priority = "Medium" → e3.priority = "High" →
      (mergeEpics [e1, e2, e3]).map (fun e => e.priority) = ["High"]) ∧
    (e1.priority = "High" → e2.priority = "Low" →
      (mergeEpics [e1, e2]).map (fun e => e.priority) = ["High"]) := by
  have hpair : (mergeEpics [e1, e2]).map (fun e => e.priority) =
      [escalate e1.priority e2.priority] := by
    rw [mergeEpics_pair_collision e1 e2 h2]
    rfl
  refine ⟨hpair, ?_, ?_, ?_⟩
  · intro hp1 hp2
    rw [hpair, hp1, hp2]
    rfl
  · intro hp1 hp2 hp3
    rw [mergeEpics_triple_collision e1 e2 e3 h2 h3]
    show [escalate (escalate e1.priority e2.priority) e3.priority] = _
    rw [hp1, hp2, hp3]
    rfl
  · intro hp1 hp2
    rw [hpair, hp1, hp2]
    rfl

/-- Witness for `mergeEpics_priority_escalation`: three concrete epics whose
titles normalize to `auth`, with priorities Low, Medium, High; the pairwise
merge escalates to Medium and the triple merge escalates to High. -/
theorem mergeEpics_priority_escalation_witness :
    (mergeEpics [⟨"Auth", "d1", "Low", 0, []⟩, ⟨" auth ", "d2", "Medium", 0, []⟩]).map
        (fun e => e.priority) = ["Medium"] ∧
    (mergeEpics [⟨"Auth", "d1", "Low", 0, []⟩, ⟨" auth ", "d2", "Medium", 0, []⟩,
        ⟨"AUTH", "d3", "High", 0, []⟩]).map (fun e => e.priority) = ["High"] :=
  ⟨(mergeEpics_priority_escalation ⟨"Auth", "d1", "Low", 0, []⟩
      ⟨" auth ", "d2", "Medium", 0, []⟩ ⟨"AUTH", "d3", "High", 0, []⟩
      (by decide) (by decide)).2.1 rfl rfl,
   (mergeEpics_priority_escalation ⟨"Auth", "d1", "Low", 0, []⟩
      ⟨" auth ", "d2", "Medium", 0, []⟩ ⟨"AUTH", "d3", "High", 0, []⟩
      (by decide) (by decide)).2.2.1 rfl rfl rfl⟩

/-- C5: story deduplication keys stories by trimmed lowercased title; on a
collision the incoming story replaces the held one exactly when its
description is strictly longer (in bytes) or its acceptance-criteria list is
strictly longer; and the spec's concrete example — stories titled
`" Login Page "` and `"login page"` with 10- and 40-byte descriptions —
merges to a single story carrying the 40-byte description. -/
theorem deduplicateStories_collision_rule (s1 s2 : Story) :
    (normalize s2.title = normalize s1.title →
      deduplicateStories [s1, s2] =
        [if goLen s1.description < goLen s2.description ∨
            s1.acceptanceCriteria.length < s2.acceptanceCriteria.length
         then s2 else s1]) ∧
    (s1.title = " Login Page " → s2.title = "login page" →
      goLen s1.description = 10 → goLen s2.description = 40 →
      deduplicateStories [s1, s2] = [s2] ∧
      (deduplicateStories [s1, s2]).map (fun s => goLen s.description) = [40]) := by
  have hgen : ∀ h : normalize s2.title = normalize s1.title,
      deduplicateStories [s1, s2] =
        [if goLen s1.description < goLen s2.description ∨
            s1.acceptanceCriteria.length < s2.acceptanceCriteria.length
         then s2 else s1] := by
    intro h
    simp [deduplicateStories, mapFold, upsert, h, pickStory]
  refine ⟨hgen, ?_⟩
  intro ht1 ht2 hd1 hd2
  have hk : normalize s2.title = normalize s1.title := by
    rw [ht1, ht2]
    rfl
  have hcond : goLen s1.description < goLen s2.description ∨
      s1.acceptanceCriteria.length < s2.acceptanceCriteria.length := by
    rw [hd1, hd2]
    exact Or.inl (by norm_num)
  have hres : deduplicateStories [s1, s2] = [s2] := by
    rw [hgen hk, if_pos hcond]
  exact ⟨hres, by rw [hres]; simp [hd2]⟩

/-- Witness for `deduplicateStories_collision_rule`: two concrete stories
titled `" Login Page "` and `"login page"` with 10- and 40-byte
descriptions collapse to the second story. -/
theorem deduplicateStories_collision_rule_witness :
    deduplicateStories
        [⟨" Login Page ", "0123456789", 1, "High", [], []⟩,
         ⟨"login page", "0123456789012345678901234567890123456789", 2, "Low", [], []⟩] =
      [⟨"login page", "0123456789012345678901234567890123456789", 2, "Low", [], []⟩] :=
  ((deduplicateStories_collision_rule
      ⟨" Login Page ", "0123456789", 1, "High", [], []⟩
      ⟨"login page", "0123456789012345678901234567890123456789", 2, "Low", [], []⟩).2
    rfl rfl (by decide) (by decide)).1

/-! ## Line-respecting chunker (`splitIntoChunks`, `main.go`)

The Go function splits the content on `"\n"`, then accumulates lines into a
`strings.Builder`, flushing the running chunk whenever appending the next
line (plus its newline) would exceed `chunkSize` and the running chunk is
non-empty; the final partial chunk is emitted if non-empty.  The running
chunk is modelled as the list of its lines, rendered to the builder's string
with `renderChunk` on emission. -/

/-- Split a character list at `'\n'`; models Go
`strings.Split(content, "\n")`. -/
def splitLinesList : List Char → List (List Char)
  | [] => [[]]
  | c :: rest =>
    match splitLinesList rest with
    | [] => [[]]
    | l :: ls => if c = '\n' then [] :: l :: ls else (c :: l) :: ls

/-- The lines of a string, as split by Go `strings.Split(content, "\n")`. -/
def splitLines (s : String) : List String :=
  (splitLinesList s.toList).map String.mk

/-- The builder contents of one chunk: every line followed by `"\n"`, as
written by `currentChunk.WriteString(line + "\n")`. -/
def renderChunk (ls : List String) : String :=
  String.join (ls.map (fun l => l ++ "\n"))

/-- The byte size the Go loop accounts to a list of buffered lines
(`len(line) + 1` per line). -/
def chunkWeight (ls : List String) : Int :=
  (ls.map (fun l => (goLen l : Int) + 1)).sum

/-- The accumulation loop of `splitIntoChunks`, carrying the lines of the
running chunk and its accounted size; returns the chunks as lists of
lines. -/
def splitLoop (chunkSize : Int) : List String → List String → Int → List (List String)
  | [], curr, currSize => if currSize > 0 then [curr] else []
  | line :: rest, curr, currSize =>
    let lineSize : Int := (goLen line : Int) + 1
    if currSize + lineSize > chunkSize ∧ currSize > 0 then
      curr :: splitLoop chunkSize rest [line] lineSize
    else
      splitLoop chunkSize rest (curr ++ [line]) (currSize + lineSize)

/-- Models `splitIntoChunks` (`main.go`): content at most `chunkSize` bytes is a
single chunk; otherwise the line-accumulation loop runs and each emitted
chunk is rendered from its lines. -/
def splitIntoChunks (content : String) (chunkSize : Int) : List String :=
  if (goLen content : Int) ≤ chunkSize then [content]
  else (splitLoop chunkSize (splitLines content) [] 0).map renderChunk

theorem splitLinesList_ne_nil (l : List Char) : splitLinesList l ≠ [] := by
  cases l with
  | nil => simp [splitLinesList]
  | cons c rest =>
    simp only [splitLinesList]
    cases splitLinesList rest with
    | nil => simp
    | cons x xs =>
      by_cases h : c = '\n' <;> simp [h]

theorem chunkWeight_nonneg (ls : List String) : 0 ≤ chunkWeight ls := by
  induction ls with
  | nil => simp [chunkWeight]
  | cons l rest ih =>
    have : (0 : Int) ≤ (goLen l : Int) + 1 := by positivity
    simp only [chunkWeight, List.map_cons, List.sum_cons]
    have := ih
    simp only [chunkWeight] at this
    omega

theorem chunkWeight_eq_zero (ls : List String) (h : chunkWeight ls = 0) : ls = [] := by
  cases ls with
  | nil => rfl
  | cons l rest =>
    exfalso
    have hrest := chunkWeight_nonneg rest
    simp only [chunkWeight, List.map_cons, List.sum_cons] at h
    simp only [chunkWeight] at hrest
    omega

theorem splitLoop_join (chunkSize : Int) :
    ∀ (lines curr : List String) (currSize : Int), currSize = chunkWeight curr →
      (splitLoop chunkSize lines curr currSize).flatten = curr ++ lines := by
  intro lines
  induction lines with
  | nil =>
    intro curr currSize hsize
    by_cases h : currSize > 0
    · simp [splitLoop, h]
    · have hw := chunkWeight_nonneg curr
      have h0 : chunkWeight curr = 0 := by omega
      rw [chunkWeight_eq_zero curr h0]
      simp [splitLoop, h]
  | cons line rest ih =>
    intro curr currSize hsize
    simp only [splitLoop]
    by_cases h : currSize + ((goLen line : Int) + 1) > chunkSize ∧ currSize > 0
    · rw [if_pos h]
      simp only [List.flatten_cons]
      rw [ih [line] ((goLen line : Int) + 1) (by simp [chunkWeight])]
      simp
    · rw [if_neg h]
      rw [ih (curr ++ [line]) (currSize + ((goLen line : Int) + 1))
        (by simp [chunkWeight, hsize])]
      simp

theorem splitLoop_ne_nil (chunkSize : Int) :
    ∀ (lines curr : List String) (currSize : Int), 0 ≤ currSize →
      (0 < currSize ∨ lines ≠ []) → splitLoop chunkSize lines curr currSize ≠ [] := by
  intro lines
  induction lines with
  | nil =>
    intro curr currSize hnn hor
    have hpos : 0 < currSize := by
      rcases hor with h | h
      · exact h
      · exact absurd rfl h
    simp [splitLoop, hpos]
  | cons line rest ih =>
    intro curr currSize hnn _
    simp only [splitLoop]
    by_cases h : currSize + ((goLen line : Int) + 1) > chunkSize ∧ currSize > 0
    · rw [if_pos h]
      simp
    · rw [if_neg h]
      exact ih (curr ++ [line]) (currSize + ((goLen line : Int) + 1)) (by omega)
        (Or.inl (by omega))

theorem splitLines_ne_nil (s : String) : splitLines s ≠ [] := by
  unfold splitLines
  intro h
  exact splitLinesList_ne_nil s.toList (List.map_eq_nil_iff.mp h)

/-- C6 amended: the line-respecting chunker `splitIntoChunks` (`main.go`)
splits at line boundaries only — content at most `chunkSize` bytes is
returned whole, and otherwise every chunk is the render of a list of
consecutive lines, the concatenation of the chunks' line lists is exactly
the original line sequence (every line exactly once, in order), and the
final partial chunk is always emitted (the chunk list is non-empty).  The
overlap-variant `chunkContent` does not satisfy this property (shown
separately on a concrete input). -/
theorem splitIntoChunks_line_coverage (content : String) (chunkSize : Int) :
    ((goLen content : Int) ≤ chunkSize → splitIntoChunks content chunkSize = [content]) ∧
    (¬ (goLen content : Int) ≤ chunkSize →
      splitIntoChunks content chunkSize =
        (splitLoop chunkSize (splitLines content) [] 0).map renderChunk ∧
      (splitLoop chunkSize (splitLines content) [] 0).flatten = splitLines content ∧
      splitLoop chunkSize (splitLines content) [] 0 ≠ []) := by
  constructor
  · intro h
    simp [splitIntoChunks, h]
  · intro h
    refine ⟨by simp [splitIntoChunks, h], ?_, ?_⟩
    · simpa using splitLoop_join chunkSize (splitLines content) [] 0 (by simp [chunkWeight])
    · exact splitLoop_ne_nil chunkSize (splitLines content) [] 0 (le_refl 0)
        (Or.inr (splitLines_ne_nil content))

/-- Witness for `splitIntoChunks_line_coverage`: the 8-byte content
`"ab\ncd\nef"` with `chunkSize = 3` splits into three chunks of one line
each, whose line lists concatenate back to the original three lines. -/
theorem splitIntoChunks_line_coverage_witness :
    splitIntoChunks "ab\ncd\nef" 3 = ["ab\n", "cd\n", "ef\n"] ∧
    (splitLoop 3 (splitLines "ab\ncd\nef") [] 0).flatten = ["ab", "cd", "ef"] ∧
    splitIntoChunks "ab\ncd\nef" 20 = ["ab\ncd\nef"] := by
  have h := splitIntoChunks_line_coverage "ab\ncd\nef" 3
  have h20 := splitIntoChunks_line_coverage "ab\ncd\nef" 20
  obtain ⟨hmap, hjoin, -⟩ := h.2 (by decide)
  refine ⟨?_, ?_, h20.1 (by decide)⟩
  · rw [hmap]
    rfl
  · rw [hjoin]
    rfl

/-! ## Ticket creation coordinator (`CreateTicketsFromBreakdown`)

The JIRA tracker is an oracle mapping a create-issue request and an attempt
number to a created key or an error; every create call goes through
`CreateIssueWithRetry` (3 attempts, the same duplicated loop as
`ProcessWithRetry`).  A run records its result, the created tickets in
creation order, the story-failure warnings, and every (post-retry) create
call made. -/

/-- A create-issue request as assembled by `CreateIssue`. -/
structure IssueReq where
  title : String
  description : String
  issueType : String
  priority : String
  epicLink : String
deriving Repr, DecidableEq

/-- Models `CreateIssueWithRetry`: the hard-coded 3-attempt retry loop around one
tracker call. -/
def createIssueWithRetry (tracker : IssueReq → Nat → Except String String)
    (req : IssueReq) : Except String String :=
  (retryGo (tracker req) 3 3 1 Option.none).1

/-- The full story description built by `CreateTicketsFromBreakdown`: the
story description, a formatted acceptance-criteria bullet list, and a
dependencies line when dependencies exist. -/
def fullStoryDescription (story : Story) : String :=
  let base := story.description ++ "\n\n*Acceptance Criteria:*\n" ++
    String.join (story.acceptanceCriteria.map (fun c => "• " ++ c ++ "\n"))
  if story.dependencies.length > 0 then
    base ++ "\n*Dependencies:* " ++ String.intercalate ", " story.dependencies
  else base

/-- The create-issue request for an epic (`CreateEpic`): issue type `Epic`,
no parent link. -/
def epicReq (epic : Epic) : IssueReq :=
  { title := epic.title, description := epic.description, issueType := "Epic",
    priority := epic.priority, epicLink := "" }

/-- The create-issue request for a story (`CreateTask`): issue type `Task`,
parent link set to the owning epic's tracker key. -/
def storyReq (story : Story) (epicKey : String) : IssueReq :=
  { title := story.title, description := fullStoryDescription story,
    issueType := "Task", priority := story.priority, epicLink := epicKey }

/-- The observable outcome of one `CreateTicketsFromBreakdown` run. -/
structure TicketRun where
  result : Except String Unit
  created : List (String × String)
  warnings : List String
  attempted : List IssueReq
deriving Repr

/-- The inner story loop of `CreateTicketsFromBreakdown`: each story of the
epic is attempted; a failed story is skipped with a warning and the loop
continues.  Returns (created (title, key) pairs, warnings, attempted
requests). -/
def createStories (tracker : IssueReq → Nat → Except String String)
    (epicKey : String) : List Story → List (String × String) × List String × List IssueReq
  | [] => ([], [], [])
  | story :: rest =>
    let req := storyReq story epicKey
    let r := createStories tracker epicKey rest
    match createIssueWithRetry tracker req with
    | Except.ok key => ((story.title, key) :: r.1, r.2.1, req :: r.2.2)
    | Except.error e =>
      (r.1, ("Failed to create story '" ++ story.title ++ "': " ++ e) :: r.2.1,
        req :: r.2.2)

/-- The epic loop of `CreateTicketsFromBreakdown`: a failed epic aborts the
whole run with an error naming it (everything already created stays); after
a successful epic its stories are created immediately, then the loop
continues with the next epic. -/
def createTicketsLoop (tracker : IssueReq → Nat → Except String String) :
    List Epic → TicketRun
  | [] => { result := Except.ok (), created := [], warnings := [], attempted := [] }
  | epic :: rest =>
    let req := epicReq epic
    match createIssueWithRetry tracker req with
    | Except.error e =>
      { result := Except.error ("failed to create epic '" ++ epic.title ++ "': " ++ e),
        created := [], warnings := [], attempted := [req] }
    | Except.ok key =>
      let s := createStories tracker key epic.stories
      let restRun := createTicketsLoop tracker rest
      { result := restRun.result,
        created := (epic.title, key) :: s.1 ++ restRun.created,
        warnings := s.2.1 ++ restRun.warnings,
        attempted := req :: s.2.2 ++ restRun.attempted }

/-- Models `CreateTicketsFromBreakdown`: walk the breakdown's epics. -/
def createTicketsFromBreakdown (tracker : IssueReq → Nat → Except String String)
    (breakdown : ProjectBreakdown) : TicketRun :=
  createTicketsLoop tracker breakdown.epics

theorem createStories_counts (tracker : IssueReq → Nat → Except String String)
    (epicKey : String) (stories : List Story) :
    (createStories tracker epicKey stories).2.2.length = stories.length ∧
    (createStories tracker epicKey stories).1.length +
      (createStories tracker epicKey stories).2.1.length = stories.length := by
  induction stories with
  | nil => simp [createStories]
  | cons story rest ih =>
    simp only [createStories]
    cases createIssueWithRetry tracker (storyReq story epicKey) with
    | ok key => simp only [List.length_cons]; omega
    | error e => simp only [List.length_cons]; omega

theorem createTicketsLoop_all_epics_ok (tracker : IssueReq → Nat → Except String String)
    (epics : List Epic)
    (h : ∀ e ∈ epics, ∃ k, createIssueWithRetry tracker (epicReq e) = Except.ok k) :
    (createTicketsLoop tracker epics).result = Except.ok () ∧
    (createTicketsLoop tracker epics).attempted.length =
      epics.length + (epics.map (fun e => e.stories.length)).sum ∧
    (createTicketsLoop tracker epics).created.length +
      (createTicketsLoop tracker epics).warnings.length =
      (createTicketsLoop tracker epics).attempted.length := by
  induction epics with
  | nil => simp [createTicketsLoop]
  | cons epic rest ih =>
    obtain ⟨key, hkey⟩ := h epic (by simp)
    obtain ⟨ih1, ih2, ih3⟩ := ih (fun e he => h e (by simp [he]))
    obtain ⟨hs1, hs2⟩ := createStories_counts tracker key epic.stories
    simp only [createTicketsLoop, hkey]
    refine ⟨ih1, ?_, ?_⟩
    · simp only [List.length_cons, List.length_append, List.map_cons, List.sum_cons]
      omega
    · simp only [List.length_cons, List.length_append]
      omega

theorem createTicketsLoop_epic_fails (tracker : IssueReq → Nat → Except String String)
    (pre : List Epic) (bad : Epic) (post : List Epic)
    (hpre : ∀ e ∈ pre, ∃ k, createIssueWithRetry tracker (epicReq e) = Except.ok k)
    (hbad : ∃ err, createIssueWithRetry tracker (epicReq bad) = Except.error err) :
    (∃ e, (createTicketsLoop tracker (pre ++ bad :: post)).result =
      Except.error ("failed to create epic '" ++ bad.title ++ "': " ++ e)) ∧
    (createTicketsLoop tracker (pre ++ bad :: post)).created =
      (createTicketsLoop tracker pre).created ∧
    (createTicketsLoop tracker (pre ++ bad :: post)).attempted =
      (createTicketsLoop tracker pre).attempted ++ [epicReq bad] := by
  induction pre with
  | nil =>
    obtain ⟨err, herr⟩ := hbad
    refine ⟨⟨err, ?_⟩, ?_, ?_⟩ <;> simp [createTicketsLoop, herr]
  | cons epic rest ih =>
    obtain ⟨key, hkey⟩ := hpre epic (by simp)
    obtain ⟨ih1, ih2, ih3⟩ := ih (fun e he => hpre e (by simp [he]))
    simp only [List.cons_append, createTicketsLoop, hkey]
    refine ⟨ih1, ?_, ?_⟩
    · simp [ih2]
    · simp [ih3]

/-- C1: during ticket creation, an epic whose create call fails after its
retries aborts the whole run with an error naming it — nothing after it is
attempted, while everything created in earlier iterations stays (no
rollback); a story whose create call fails after its retries is merely
skipped with a warning: every epic and every story still gets its create
call, each call either creates a ticket or records a warning, and the run
returns success. -/
theorem createTickets_epic_fatal_story_tolerant
    (tracker : IssueReq → Nat → Except String String)
    (pre : List Epic) (bad : Epic) (post : List Epic) (bd bd2 : ProjectBreakdown)
    (hbd : bd.epics = pre ++ bad :: post)
    (hpre : ∀ e ∈ pre, ∃ k, createIssueWithRetry tracker (epicReq e) = Except.ok k)
    (hbad : ∃ err, createIssueWithRetry tracker (epicReq bad) = Except.error err)
    (hbd2 : ∀ e ∈ bd2.epics, ∃ k, createIssueWithRetry tracker (epicReq e) = Except.ok k) :
    (∃ e, (createTicketsFromBreakdown tracker bd).result =
      Except.error ("failed to create epic '" ++ bad.title ++ "': " ++ e)) ∧
    (createTicketsFromBreakdown tracker bd).created =
      (createTicketsLoop tracker pre).created ∧
    (createTicketsFromBreakdown tracker bd).attempted =
      (createTicketsLoop tracker pre).attempted ++ [epicReq bad] ∧
    (createTicketsFromBreakdown tracker bd2).result = Except.ok () ∧
    (createTicketsFromBreakdown tracker bd2).attempted.length =
      bd2.epics.length + (bd2.epics.map (fun e => e.stories.length)).sum ∧
    (createTicketsFromBreakdown tracker bd2).created.length +
      (createTicketsFromBreakdown tracker bd2).warnings.length =
      (createTicketsFromBreakdown tracker bd2).attempted.length := by
  obtain ⟨h1, h2, h3⟩ := createTicketsLoop_epic_fails tracker pre bad post hpre hbad
  obtain ⟨h4, h5, h6⟩ := createTicketsLoop_all_epics_ok tracker bd2.epics hbd2
  unfold createTicketsFromBreakdown
  rw [hbd]
  exact ⟨h1, h2, h3, h4, h5, h6⟩

/-- Witness for `createTickets_epic_fatal_story_tolerant`: a tracker that
always rejects the epic titled `Bad Epic` and the story titled `Bad Story`:
the two-epic breakdown aborts after the failing epic keeping the first
epic's tickets, while the one-epic breakdown (whose second story always
fails) still reports overall success. -/
theorem createTickets_epic_fatal_story_tolerant_witness :
    (createTicketsFromBreakdown
        (fun req _ => if req.title = "Bad Epic" then Except.error "boom"
          else if req.title = "Bad Story" then Except.error "sboom"
          else Except.ok "KEY-1")
        ⟨"p", "o",
          [⟨"Good Epic", "d", "High", 0,
             [⟨"Good Story", "sd", 1, "High", [], []⟩,
              ⟨"Bad Story", "sd2", 2, "Low", [], []⟩]⟩,
           ⟨"Bad Epic", "d2", "Low", 0, []⟩], 0, 0, 0, 0⟩).created =
      (createTicketsLoop
        (fun req _ => if req.title = "Bad Epic" then Except.error "boom"
          else if req.title = "Bad Story" then Except.error "sboom"
          else Except.ok "KEY-1")
        [⟨"Good Epic", "d", "High", 0,
           [⟨"Good Story", "sd", 1, "High", [], []⟩,
            ⟨"Bad Story", "sd2", 2, "Low", [], []⟩]⟩]).created ∧
    (createTicketsFromBreakdown
        (fun req _ => if req.title = "Bad Epic" then Except.error "boom"
          else if req.title = "Bad Story" then Except.error "sboom"
          else Except.ok "KEY-1")
        ⟨"p", "o",
          [⟨"Good Epic", "d", "High", 0,
             [⟨"Good Story", "sd", 1, "High", [], []⟩,
              ⟨"Bad Story", "sd2", 2, "Low", [], []⟩]⟩], 0, 0, 0, 0⟩).result =
      Except.ok () := by
  have h := createTickets_epic_fatal_story_tolerant
    (fun req _ => if req.title = "Bad Epic" then Except.error "boom"
      else if req.title = "Bad Story" then Except.error "sboom"
      else Except.ok "KEY-1")
    [⟨"Good Epic", "d", "High", 0,
       [⟨"Good Story", "sd", 1, "High", [], []⟩,
        ⟨"Bad Story", "sd2", 2, "Low", [], []⟩]⟩]
    ⟨"Bad Epic", "d2", "Low", 0, []⟩ []
    ⟨"p", "o",
      [⟨"Good Epic", "d", "High", 0,
         [⟨"Good Story", "sd", 1, "High", [], []⟩,
          ⟨"Bad Story", "sd2", 2, "Low", [], []⟩]⟩,
       ⟨"Bad Epic", "d2", "Low", 0, []⟩], 0, 0, 0, 0⟩
    ⟨"p", "o",
      [⟨"Good Epic", "d", "High", 0,
         [⟨"Good Story", "sd", 1, "High", [], []⟩,
          ⟨"Bad Story", "sd2", 2, "Low", [], []⟩]⟩], 0, 0, 0, 0⟩
    rfl
    (by intro e he
        simp only [List.mem_singleton] at he
        subst he
        exact ⟨"KEY-1", rfl⟩)
    ⟨"failed after 3 attempts: boom", rfl⟩
    (by intro e he
        simp only [List.mem_singleton] at he
        subst he
        exact ⟨"KEY-1", rfl⟩)
  exact ⟨h.2.1, h.2.2.2.1⟩

/-! ## Pipeline driver (`ProcessProject`, `internal/services/analysis.go`)

Given the successful per-chunk AI responses, the driver collects all epics,
picks the project name and overview in its per-chunk loop, merges the epics
and recomputes the totals from the merged sequence.  The per-chunk loop sets
name/overview from chunk 0 and, for any later chunk whose reported project
name differs from the accumulated name, appends `" (Merged)"` to the name. -/

/-- The name/overview accumulation of `ProcessProject`'s chunk loop,
starting at chunk index `i`. -/
def nameOverviewLoop : List ProjectBreakdown → Nat → String → String → String × String
  | [], _, name, overview => (name, overview)
  | b :: rest, i, name, overview =>
    if i = 0 then nameOverviewLoop rest (i + 1) b.projectName b.overview
    else if b.projectName ≠ name then
      nameOverviewLoop rest (i + 1) (name ++ " (Merged)") overview
    else nameOverviewLoop rest (i + 1) name overview

/-- The name/overview accumulation of `analyzeProject`'s chunk loop
(`main.go` variant): only chunk 0 sets them. -/
def analyzeNameOverviewLoop : List ProjectBreakdown → Nat → String × String → String × String
  | [], _, acc => acc
  | b :: rest, i, acc =>
    analyzeNameOverviewLoop rest (i + 1) (if i = 0 then (b.projectName, b.overview) else acc)

/-- Total story points of one epic. -/
def sumStoryPoints (e : Epic) : Int :=
  (e.stories.map (fun s => s.storyPoints)).sum

/-- Total story count over a list of epics. -/
def totalStoriesOf (es : List Epic) : Nat :=
  (es.map (fun e => e.stories.length)).sum

/-- Models `ProcessProject` after all chunks succeeded: collect every chunk's
epics in order, run the name/overview loop, merge, and recompute the final
totals from the merged epic sequence. -/
def processProjectCore (chunkResults : List ProjectBreakdown) : ProjectBreakdown :=
  let allEpics := (chunkResults.map (fun b => b.epics)).flatten
  let no := nameOverviewLoop chunkResults 0 "" ""
  let mergedEpics := mergeEpics allEpics
  { projectName := no.1
    overview := no.2
    epics := mergedEpics
    totalEpics := (mergedEpics.length : Int)
    totalStories := (totalStoriesOf mergedEpics : Int)
    totalStoryPoints := (mergedEpics.map sumStoryPoints).sum
    processedChunks := (chunkResults.length : Int) }

theorem nameOverviewLoop_overview (rest : List ProjectBreakdown) :
    ∀ (i : Nat) (name overview : String), i ≠ 0 →
      (nameOverviewLoop rest i name overview).2 = overview := by
  induction rest with
  | nil => intro i name overview _; rfl
  | cons b tail ih =>
    intro i name overview hi
    simp only [nameOverviewLoop, if_neg hi]
    by_cases hb : b.projectName ≠ name
    · rw [if_pos hb]
      exact ih (i + 1) _ _ (by omega)
    · rw [if_neg hb]
      exact ih (i + 1) _ _ (by omega)

theorem nameOverviewLoop_name_stable (rest : List ProjectBreakdown) :
    ∀ (i : Nat) (name overview : String), i ≠ 0 →
      (∀ b ∈ rest, b.projectName = name) →
      (nameOverviewLoop rest i name overview).1 = name := by
  induction rest with
  | nil => intro i name overview _ _; rfl
  | cons b tail ih =>
    intro i name overview hi hall
    have hb : ¬ b.projectName ≠ name := fun hne => hne (hall b (by simp))
    simp only [nameOverviewLoop, if_neg hi, if_neg hb]
    exact ih (i + 1) _ _ (by omega) (fun b' hb' => hall b' (by simp [hb']))

theorem analyzeNameOverviewLoop_const (rest : List ProjectBreakdown) :
    ∀ (i : Nat) (acc : String × String), i ≠ 0 →
      analyzeNameOverviewLoop rest i acc = acc := by
  induction rest with
  | nil => intro i acc _; rfl
  | cons b tail ih =>
    intro i acc hi
    simp only [analyzeNameOverviewLoop, if_neg hi]
    exact ih (i + 1) acc (by omega)

/-- C7 counterexample: two successful chunks reporting project names
`"Alpha"` and `"Beta"` — `ProcessProject` appends `" (Merged)"`, so the
final project name is *not* the first chunk's name, even though the
overview is. -/
theorem processProjectCore_merged_name_counterexample :
    (processProjectCore
        [⟨"Alpha", "first overview", [], 0, 0, 0, 0⟩,
         ⟨"Beta", "second overview", [], 0, 0, 0, 0⟩]).projectName ≠ "Alpha" ∧
    (processProjectCore
        [⟨"Alpha", "first overview", [], 0, 0, 0, 0⟩,
         ⟨"Beta", "second overview", [], 0, 0, 0, 0⟩]).projectName = "Alpha (Merged)" ∧
    (processProjectCore
        [⟨"Alpha", "first overview", [], 0, 0, 0, 0⟩,
         ⟨"Beta", "second overview", [], 0, 0, 0, 0⟩]).overview = "first overview" := by
  refine ⟨?_, rfl, rfl⟩
  intro h
  exact absurd h (by decide)

/-- C7 amended: in every multi-chunk run in which every chunk's AI call
succeeds, the final overview equals exactly the first chunk's overview; the
final project name equals the first chunk's name provided every later chunk
reports that same name (otherwise `ProcessProject` appends `" (Merged)"`);
in the `main.go` variant (`analyzeProject`), name and overview are the first
chunk's unconditionally. -/
theorem processProjectCore_first_chunk_name_overview
    (b : ProjectBreakdown) (rest : List ProjectBreakdown) :
    (processProjectCore (b :: rest)).overview = b.overview ∧
    ((∀ b2 ∈ rest, b2.projectName = b.projectName) →
      (processProjectCore (b :: rest)).projectName = b.projectName) ∧
    analyzeNameOverviewLoop (b :: rest) 0 ("", "") = (b.projectName, b.overview) := by
  refine ⟨?_, ?_, ?_⟩
  · show (nameOverviewLoop (b :: rest) 0 "" "").2 = b.overview
    simp only [nameOverviewLoop, if_pos rfl]
    exact nameOverviewLoop_overview rest 1 b.projectName b.overview (by omega)
  · intro hall
    show (nameOverviewLoop (b :: rest) 0 "" "").1 = b.projectName
    simp only [nameOverviewLoop, if_pos rfl]
    exact nameOverviewLoop_name_stable rest 1 b.projectName b.overview (by omega) hall
  · simp only [analyzeNameOverviewLoop, if_pos rfl]
    exact analyzeNameOverviewLoop_const rest 1 (b.projectName, b.overview) (by omega)

/-- Witness for `processProjectCore_first_chunk_name_overview`: two chunks
that agree on the project name keep exactly the first chunk's name and
overview. -/
theorem processProjectCore_first_chunk_name_overview_witness :
    (processProjectCore
        [⟨"Alpha", "first overview", [], 0, 0, 0, 0⟩,
         ⟨"Alpha", "second overview", [], 0, 0, 0, 0⟩]).overview = "first overview" ∧
    (processProjectCore
        [⟨"Alpha", "first overview", [], 0, 0, 0, 0⟩,
         ⟨"Alpha", "second overview", [], 0, 0, 0, 0⟩]).projectName = "Alpha" := by
  have h := processProjectCore_first_chunk_name_overview
    ⟨"Alpha", "first overview", [], 0, 0, 0, 0⟩
    [⟨"Alpha", "second overview", [], 0, 0, 0, 0⟩]
  exact ⟨h.1, h.2.1 (by intro b2 hb2; simp only [List.mem_singleton] at hb2; rw [hb2])⟩

/-- C8: the final breakdown's counters are recomputed solely from the merged
epic sequence — total epics is the merged list's length, total stories and
total story points are sums over the merged epics — and the upstream
per-chunk totals never enter the result: replacing every chunk's reported
totals by arbitrary values leaves the entire final breakdown unchanged. -/
theorem processProjectCore_totals_recomputed (results : List ProjectBreakdown)
    (f g h : ProjectBreakdown → Int) :
    (processProjectCore results).totalEpics =
      ((processProjectCore results).epics.length : Int) ∧
    (processProjectCore results).totalStories =
      (totalStoriesOf (processProjectCore results).epics : Int) ∧
    (processProjectCore results).totalStoryPoints =
      ((processProjectCore results).epics.map sumStoryPoints).sum ∧
    processProjectCore
        (results.map (fun b =>
          { b with totalEpics := f b, totalStories := g b, totalStoryPoints := h b })) =
      processProjectCore results := by
  refine ⟨rfl, rfl, rfl, ?_⟩
  have hepics : (results.map (fun b =>
      ({ b with totalEpics := f b, totalStories := g b, totalStoryPoints := h b } :
        ProjectBreakdown))).map (fun b => b.epics) = results.map (fun b => b.epics) := by
    rw [List.map_map]
    exact List.map_congr_left (fun b _ => rfl)
  have hloop : ∀ (rs : List ProjectBreakdown) (i : Nat) (name overview : String),
      nameOverviewLoop (rs.map (fun b =>
        { b with totalEpics := f b, totalStories := g b, totalStoryPoints := h b })) i
          name overview =
        nameOverviewLoop rs i name overview := by
    intro rs
    induction rs with
    | nil => intro i name overview; rfl
    | cons b tail ih =>
      intro i name overview
      simp only [List.map_cons, nameOverviewLoop]
      by_cases hi : i = 0
      · rw [if_pos hi, if_pos hi]
        exact ih (i + 1) b.projectName b.overview
      · rw [if_neg hi, if_neg hi]
        by_cases hb : b.projectName ≠ name
        · rw [if_pos hb, if_pos hb]
          exact ih (i + 1) _ _
        · rw [if_neg hb, if_neg hb]
          exact ih (i + 1) _ _
  unfold processProjectCore
  rw [hepics, hloop, List.length_map]

/-! ## Response cleaning (`ProcessWithAI` / `processWithAI`)

Before JSON parsing, the raw model response text is trimmed, a leading
```` ```json ```` marker and a trailing ```` ``` ```` marker are stripped
(`strings.TrimPrefix` / `strings.TrimSuffix`), and the result is trimmed
again. -/

/-- Models Go `strings.HasPrefix`. -/
def hasPrefixGo (s pre : String) : Bool :=
  pre.toList.isPrefixOf s.toList

/-- Models Go `strings.TrimPrefix`: remove `pre` from the front of `s` when
present, otherwise return `s` unchanged. -/
def trimPrefixGo (s pre : String) : String :=
  if hasPrefixGo s pre then String.mk (s.toList.drop pre.toList.length) else s

/-- Models Go `strings.HasSuffix`. -/
def hasSuffixGo (s suf : String) : Bool :=
  suf.toList.isSuffixOf s.toList

/-- Models Go `strings.TrimSuffix`: remove `suf` from the end of `s` when
present, otherwise return `s` unchanged. -/
def trimSuffixGo (s suf : String) : String :=
  if hasSuffixGo s suf then
    String.mk (s.toList.take (s.toList.length - suf.toList.length))
  else s

/-- The response-cleaning sequence of `ProcessWithAI` (`processWithAI` in
`main.go`): trim, strip a leading ```` ```json ````, strip a trailing
```` ``` ````, trim again.  The cleaned text is what is passed to
`json.Unmarshal`. -/
def cleanResponse (text : String) : String :=
  trimGo (trimSuffixGo (trimPrefixGo (trimGo text) "```json") "```")

theorem string_toList_append (a b : String) : (a ++ b).toList = a.toList ++ b.toList := rfl

theorem string_mk_toList (s : String) : String.mk s.toList = s := rfl

theorem trimLeftList_cons_of_nonspace (c : Char) (l : List Char)
    (h : isGoSpace c = false) : trimLeftList (c :: l) = c :: l := by
  simp [trimLeftList, List.dropWhile_cons, h]

theorem trimRightList_concat_of_nonspace (c : Char) (l : List Char)
    (h : isGoSpace c = false) : trimRightList (l ++ [c]) = l ++ [c] := by
  simp [trimRightList, List.dropWhile_cons, h]

/-- C9: leading/trailing Markdown code-fence markup is stripped before JSON
parsing — for any trimmed JSON document `j` that does not itself start with
```` ```json ```` or end with ```` ``` ````, the cleaned text of the fenced
response ```` ```json<j>``` ```` equals the cleaned text of the bare
document (both are `j`), so any parser sees the identical input and yields
the identical breakdown. -/
theorem cleanResponse_strips_code_fence (j : String)
    (parse : String → Option ProjectBreakdown)
    (hTrim : trimGo j = j)
    (hPre : hasPrefixGo j "```json" = false)
    (hSuf : hasSuffixGo j "```" = false) :
    cleanResponse ("```json" ++ j ++ "```") = j ∧
    cleanResponse j = j ∧
    parse (cleanResponse ("```json" ++ j ++ "```")) = parse (cleanResponse j) := by
  have hw : ("```json" ++ j ++ "```").toList
      = '`' :: '`' :: '`' :: 'j' :: 's' :: 'o' :: 'n' :: (j.toList ++ ['`', '`', '`']) := rfl
  have hw2 : ("```json" ++ j ++ "```").toList
      = ('`' :: '`' :: '`' :: 'j' :: 's' :: 'o' :: 'n' :: (j.toList ++ ['`', '`'])) ++ ['`'] := by
    rw [hw]
    simp
  have hleft : trimLeftList (("```json" ++ j ++ "```").toList)
      = ("```json" ++ j ++ "```").toList := by
    rw [hw]
    exact trimLeftList_cons_of_nonspace _ _ (by decide)
  have hright : trimRightList (("```json" ++ j ++ "```").toList)
      = ("```json" ++ j ++ "```").toList := by
    rw [hw2]
    exact trimRightList_concat_of_nonspace _ _ (by decide)
  have htrimw : trimGo ("```json" ++ j ++ "```") = "```json" ++ j ++ "```" := by
    unfold trimGo
    rw [hleft, hright, string_mk_toList]
  have hpw : hasPrefixGo ("```json" ++ j ++ "```") "```json" = true := by
    unfold hasPrefixGo
    rw [hw]
    simp [List.isPrefixOf]
  have hstrip : trimPrefixGo ("```json" ++ j ++ "```") "```json"
      = String.mk (j.toList ++ ['`', '`', '`']) := by
    unfold trimPrefixGo
    simp only [hpw, if_true]
    rw [hw]
    rfl
  have hsw : hasSuffixGo (String.mk (j.toList ++ ['`', '`', '`'])) "```" = true := by
    unfold hasSuffixGo
    show List.isSuffixOf _ (j.toList ++ ['`', '`', '`']) = true
    simp only [List.isSuffixOf]
    rw [List.reverse_append]
    simp [List.isPrefixOf]
  have hstrip2 : trimSuffixGo (String.mk (j.toList ++ ['`', '`', '`'])) "```"
      = String.mk j.toList := by
    unfold trimSuffixGo
    simp only [hsw, if_true]
    congr 1
    show (j.toList ++ ['`', '`', '`']).take ((j.toList ++ ['`', '`', '`']).length - 3)
        = j.toList
    rw [List.length_append]
    rw [show j.toList.length + (['`', '`', '`'] : List Char).length - 3
        = j.toList.length by simp]
    exact List.take_left j.toList ['`', '`', '`']
  have hclean_w : cleanResponse ("```json" ++ j ++ "```") = j := by
    unfold cleanResponse
    rw [htrimw, hstrip, hstrip2, string_mk_toList, hTrim]
  have hclean_j : cleanResponse j = j := by
    unfold cleanResponse
    rw [hTrim]
    unfold trimPrefixGo
    simp only [hPre, Bool.false_eq_true, if_false]
    unfold trimSuffixGo
    simp only [hSuf, Bool.false_eq_true, if_false]
    exact hTrim
  exact ⟨hclean_w, hclean_j, by rw [hclean_w, hclean_j]⟩

/-- Witness for `cleanResponse_strips_code_fence`: the bare JSON document
`"[1]"` wrapped in code fences cleans to exactly the bare document. -/
theorem cleanResponse_strips_code_fence_witness :
    cleanResponse ("```json" ++ "[1]" ++ "```") = "[1]" ∧ cleanResponse "[1]" = "[1]" :=
  ⟨(cleanResponse_strips_code_fence "[1]" (fun _ => Option.none)
      (by decide) (by decide) (by decide)).1,
   (cleanResponse_strips_code_fence "[1]" (fun _ => Option.none)
      (by decide) (by decide) (by decide)).2.1⟩

/-! ## Overlap-variant chunker (`chunkContent`, `internal/services/analysis.go`)

`chunkContent` uses a character-window loop
`for i := 0; i < len(content); i += chunkSize - overlap` with
`overlap := chunkSize / 4` and slices `content[i:end]` where
`end := min(i + chunkSize, len(content))`.  The loop is modelled with an
explicit fuel bound on a three-valued outcome: `Option.none` means the loop
was still running when the fuel ran out (so non-termination is `none` for
every fuel and termination is `∃ fuel` giving `some`), `Except.error` means
a Go run-time panic — `content[i:end]` panics with a slice-bounds error
unless `0 ≤ i ≤ end ≤ len(content)`, which happens on the very first
iteration when the chunk size is negative — and `Except.ok` is a normal
exit.  Go's byte indexing is modelled at character granularity, which
preserves the iteration and bounds structure exactly. -/

/-- Go's truncated (toward-zero) integer division by 4, as in
`overlap := chunkSize / 4`. -/
def goDiv4 (c : Int) : Int :=
  if 0 ≤ c then ((c.toNat / 4 : Nat) : Int) else -(((-c).toNat / 4 : Nat) : Int)

/-- The window loop of `chunkContent` from index `i`, allowed at most `fuel`
further iterations.  `none`: the loop was still running when the fuel ran
out; `some (Except.error _)`: the slice expression `content[i:end]` hit Go's
slice-bounds panic (`end < i` happens when the chunk size is negative);
`some (Except.ok chunks)`: the loop exited normally. -/
def chunkLoopFuel (content : List Char) (chunkSize : Int) :
    Nat → Int → Option (Except String (List (List Char)))
  | 0, _ => Option.none
  | fuel + 1, i =>
    if i < (content.length : Int) then
      let endPos := min (i + chunkSize) (content.length : Int)
      if 0 ≤ i ∧ i ≤ endPos then
        let chunk := (content.drop i.toNat).take (endPos - i).toNat
        match chunkLoopFuel content chunkSize fuel (i + (chunkSize - goDiv4 chunkSize)) with
        | Option.none => Option.none
        | Option.some (Except.error e) => Option.some (Except.error e)
        | Option.some (Except.ok rest) => Option.some (Except.ok (chunk :: rest))
      else Option.some (Except.error "slice bounds out of range")
    else Option.some (Except.ok [])

/-- Models `chunkContent` with a fuel bound on its loop: content within the
limit is a single chunk (no loop), otherwise the window loop runs from
index 0; a panic in the loop is the run's outcome. -/
def chunkContentFuel (content : String) (chunkSize : Int) (fuel : Nat) :
    Option (Except String (List String)) :=
  if (content.toList.length : Int) ≤ chunkSize then Option.some (Except.ok [content])
  else (chunkLoopFuel content.toList chunkSize fuel 0).map
    (fun r => r.map (fun ls => ls.map String.mk))

/-- Anthropic section of the configuration
(`internal/config`, `AnthropicConfig`). -/
structure AnthropicConfig where
  apiKey : String
  model : String
  timeoutSeconds : Int
  maxTokens : Int
  chunkSizeChars : Int
  retryCount : Int
  retryDelaySeconds : Int
deriving Repr, DecidableEq

/-- JIRA section of the configuration (`internal/config`, `JiraConfig`). -/
structure JiraConfig where
  baseURL : String
  username : String
  apiToken : String
  projectKey : String
  timeout : Int
deriving Repr, DecidableEq

/-- Processing section of the configuration
(`internal/config`, `ProcessingConfig`). -/
structure ProcessingConfig where
  mode : String
  outputDir : String
  saveIntermediate : Bool
deriving Repr, DecidableEq

/-- The application configuration (`internal/config`, `Config`). -/
structure Config where
  anthropic : AnthropicConfig
  jira : JiraConfig
  processing : ProcessingConfig
deriving Repr, DecidableEq

/-- Models `Config.Validate` (`internal/config`): only the Anthropic API key and
the four JIRA connection fields are checked. -/
def validateConfig (c : Config) : Except String Unit :=
  if c.anthropic.apiKey = "" then Except.error "anthropic API key is required"
  else if c.jira.baseURL = "" then Except.error "JIRA base URL is required"
  else if c.jira.username = "" then Except.error "JIRA username is required"
  else if c.jira.apiToken = "" then Except.error "JIRA API token is required"
  else if c.jira.projectKey = "" then Except.error "JIRA project key is required"
  else Except.ok ()

theorem goDiv4_step_pos (c : Int) (hc : 1 ≤ c) : 1 ≤ c - goDiv4 c := by
  unfold goDiv4
  rw [if_pos (by omega)]
  have h1 : c.toNat / 4 < c.toNat := Nat.div_lt_self (by omega) (by omega)
  omega

theorem chunkLoopFuel_stuck_zero (content : List Char) :
    ∀ (fuel : Nat) (i : Int), 0 ≤ i → i < (content.length : Int) →
      chunkLoopFuel content 0 fuel i = Option.none := by
  intro fuel
  induction fuel with
  | zero => intro i _ _; rfl
  | succ f ih =>
    intro i h0 hi
    have hguard : (0 : Int) ≤ i ∧ i ≤ min (i + 0) (content.length : Int) :=
      ⟨h0, le_min (by omega) (by omega)⟩
    rw [chunkLoopFuel, if_pos hi, if_pos hguard,
      show i + ((0 : Int) - goDiv4 0) = i by norm_num [goDiv4],
      ih i h0 hi]

theorem chunkLoopFuel_panic_neg (content : List Char) (chunkSize : Int)
    (hc : chunkSize < 0) (hlen : 0 < content.length) :
    ∀ fuel : Nat, 1 ≤ fuel →
      chunkLoopFuel content chunkSize fuel 0 =
        Option.some (Except.error "slice bounds out of range") := by
  intro fuel hfuel
  match fuel, hfuel with
  | f + 1, _ =>
    have hmin : min ((0 : Int) + chunkSize) (content.length : Int) ≤ 0 + chunkSize :=
      min_le_left _ _
    have hguard : ¬ ((0 : Int) ≤ 0 ∧
        (0 : Int) ≤ min ((0 : Int) + chunkSize) (content.length : Int)) := by
      intro h
      omega
    rw [chunkLoopFuel, if_pos (by exact_mod_cast hlen), if_neg hguard]

theorem chunkLoopFuel_terminates (content : List Char) (chunkSize : Int)
    (hc : 1 ≤ chunkSize) :
    ∀ (fuel : Nat) (i : Int), 0 ≤ i → (content.length : Int) - i ≤ fuel →
      ∃ r, chunkLoopFuel content chunkSize (fuel + 1) i = Option.some (Except.ok r) ∧
        (i < (content.length : Int) → r ≠ []) := by
  have hstep : 1 ≤ chunkSize - goDiv4 chunkSize := goDiv4_step_pos chunkSize hc
  intro fuel
  induction fuel with
  | zero =>
    intro i h0 hi
    have hge : ¬ i < (content.length : Int) := by omega
    refine ⟨[], ?_, fun hlt => absurd hlt hge⟩
    simp [chunkLoopFuel, hge]
  | succ f ih =>
    intro i h0 hi
    by_cases hlt : i < (content.length : Int)
    · obtain ⟨r, hr, _⟩ := ih (i + (chunkSize - goDiv4 chunkSize)) (by omega) (by omega)
      have hguard : (0 : Int) ≤ i ∧
          i ≤ min (i + chunkSize) (content.length : Int) :=
        ⟨h0, le_min (by omega) (by omega)⟩
      refine ⟨(content.drop i.toNat).take
          ((min (i + chunkSize) (content.length : Int)) - i).toNat :: r, ?_, by simp⟩
      rw [chunkLoopFuel, if_pos hlt, if_pos hguard, hr]
    · refine ⟨[], ?_, fun h => absurd h hlt⟩
      simp [chunkLoopFuel, hlt]

/-- C6 counterexample: the overlap-variant chunker `chunkContent`
(`internal/services/analysis.go`), also cited by the claim, violates the
line-coverage property: on the 13-character two-line content
`"abcdefg\nhijkl"` with chunk size 8 it emits the character windows
`[0:8]`, `[6:13]`, `[12:13]` — cutting inside both lines and duplicating
characters across consecutive chunks — so the chunks' line lists do not
concatenate to the original lines, and the chunks do not even concatenate
to the original text. -/
theorem chunkContent_line_coverage_counterexample :
    chunkContentFuel "abcdefg\nhijkl" 8 4 =
      Option.some (Except.ok ["abcdefg\n", "g\nhijkl", "l"]) ∧
    (["abcdefg\n", "g\nhijkl", "l"].map splitLines).flatten ≠
      splitLines "abcdefg\nhijkl" ∧
    "abcdefg\n" ++ "g\nhijkl" ++ "l" ≠ "abcdefg\nhijkl" := by
  exact ⟨rfl, by decide, by decide⟩

/-- C10 counterexample: for a negative chunk size the loop does not run
forever — Go's `content[i:end]` panics on the very first iteration
(`end = i + chunkSize < i`), so at chunk size `-1` on content `"ab"` the
run terminates immediately with the slice-bounds panic (already at fuel 1,
never `none`). -/
theorem chunkContent_negative_size_panic_counterexample :
    chunkContentFuel "ab" (-1) 1 =
      Option.some (Except.error "slice bounds out of range") ∧
    ¬ chunkContentFuel "ab" (-1) 1 = Option.none := by
  have h : chunkContentFuel "ab" (-1) 1 =
      Option.some (Except.error "slice bounds out of range") := rfl
  refine ⟨h, ?_⟩
  rw [h]
  exact fun hn => Option.noConfusion hn

/-- C10 amended: the overlap-variant chunker terminates normally exactly
under the (never validated) precondition that the chunk size is at least 1:
for chunk size `≥ 1` some fuel makes the loop finish with a non-empty chunk
list; for non-empty content, chunk size `= 0` makes the loop advance by step
0 and never finish for any fuel, while chunk size `< 0` makes the first
iteration's slice bounds invalid, so the run terminates at once with Go's
slice-bounds panic instead of looping; and `Config.Validate` accepts any
`chunk_size_chars` value unchanged. -/
theorem chunkContent_termination_precondition (content : String) (c : Int)
    (cfg : Config) (n : Int) :
    (1 ≤ c → ∃ fuel chunks,
      chunkContentFuel content c fuel = Option.some (Except.ok chunks) ∧ chunks ≠ []) ∧
    (c = 0 → content ≠ "" → ∀ fuel, chunkContentFuel content c fuel = Option.none) ∧
    (c < 0 → content ≠ "" → ∀ fuel, 1 ≤ fuel →
      chunkContentFuel content c fuel =
        Option.some (Except.error "slice bounds out of range")) ∧
    validateConfig { cfg with anthropic := { cfg.anthropic with chunkSizeChars := n } } =
      validateConfig cfg := by
  refine ⟨?_, ?_, ?_, rfl⟩
  · intro hc
    by_cases hsmall : (content.toList.length : Int) ≤ c
    · refine ⟨0, [content], ?_, by simp⟩
      unfold chunkContentFuel
      rw [if_pos hsmall]
    · obtain ⟨r, hr, hne⟩ := chunkLoopFuel_terminates content.toList c hc
        content.toList.length 0 (by omega) (by omega)
      refine ⟨content.toList.length + 1, r.map String.mk, ?_, ?_⟩
      · unfold chunkContentFuel
        rw [if_neg hsmall, hr]
        rfl
      · have hr0 : r ≠ [] := hne (by omega)
        simpa using hr0
  · intro hc hne fuel
    subst hc
    have hlen : content.toList ≠ [] := by
      intro h0
      apply hne
      have hmk : content = String.mk content.toList := rfl
      rw [hmk, h0]
    have hpos : 0 < content.toList.length := List.length_pos.mpr hlen
    have hsmall : ¬ (content.toList.length : Int) ≤ 0 := by omega
    simp only [chunkContentFuel, if_neg hsmall]
    rw [chunkLoopFuel_stuck_zero content.toList fuel 0 (by omega) (by omega)]
    rfl
  · intro hc hne fuel hfuel
    have hlen : content.toList ≠ [] := by
      intro h0
      apply hne
      have hmk : content = String.mk content.toList := rfl
      rw [hmk, h0]
    have hpos : 0 < content.toList.length := List.length_pos.mpr hlen
    have hsmall : ¬ (content.toList.length : Int) ≤ c := by omega
    simp only [chunkContentFuel, if_neg hsmall]
    rw [chunkLoopFuel_panic_neg content.toList c hc hpos fuel hfuel]
    rfl

/-- Witness for `chunkContent_termination_precondition`: for the two-char
content `"ab"`, chunk size 1 terminates with a non-empty chunk list, chunk
size 0 is still looping at fuel 7, chunk size `-2` panics, and validation
accepts a configuration whose chunk size is 0. -/
theorem chunkContent_termination_precondition_witness :
    (∃ fuel chunks, chunkContentFuel "ab" 1 fuel = Option.some (Except.ok chunks) ∧
      chunks ≠ []) ∧
    chunkContentFuel "ab" 0 7 = Option.none ∧
    chunkContentFuel "ab" (-2) 7 =
      Option.some (Except.error "slice bounds out of range") ∧
    validateConfig
        ⟨⟨"k", "m", 1, 1, 0, 1, 1⟩, ⟨"u", "n", "t", "p", 1⟩, ⟨"mode", "out", true⟩⟩ =
      Except.ok () :=
  ⟨(chunkContent_termination_precondition "ab" 1
      ⟨⟨"k", "m", 1, 1, 9, 1, 1⟩, ⟨"u", "n", "t", "p", 1⟩, ⟨"mode", "out", true⟩⟩ 0).1
      (by decide),
   (chunkContent_termination_precondition "ab" 0
      ⟨⟨"k", "m", 1, 1, 9, 1, 1⟩, ⟨"u", "n", "t", "p", 1⟩, ⟨"mode", "out", true⟩⟩ 0).2.1
      rfl (by decide) 7,
   (chunkContent_termination_precondition "ab" (-2)
      ⟨⟨"k", "m", 1, 1, 9, 1, 1⟩, ⟨"u", "n", "t", "p", 1⟩, ⟨"mode", "out", true⟩⟩ 0).2.2.1
      (by decide) (by decide) 7 (by decide),
   (chunkContent_termination_precondition "ab" 1
      ⟨⟨"k", "m", 1, 1, 9, 1, 1⟩, ⟨"u", "n", "t", "p", 1⟩, ⟨"mode", "out", true⟩⟩ 0).2.2.2⟩

end ScrumMaster
